import Mathlib

/-!
# Verification of the chainmint block generator (`core/generator/block.go`)

A shallow embedding of the block-production core: `MakeBlock`,
`commitBlock`, `getAndAddBlockSignatures`, `indexKey`, `nonNilSigs`,
`getPendingBlock` and `savePendingBlock`, together with theorems checking
the natural-language specification against the code.

External collaborators (the chain backend, the ed25519 verifier, the
consensus-program parser, the block marshaller, the Postgres row store)
are not part of the reviewed source file; they are modelled from the
spec as abstract functions or concrete deterministic encodings, each
marked `Modelled from the spec:` in its doc comment.
-/

namespace Chainmint

/-- Byte strings are modelled as lists of naturals. -/
abbrev Bytes := List Nat

/-- An ed25519 public key (opaque bytes). -/
abbrev PubKey := Bytes

/-- A signature (opaque bytes).  Go's `[]byte` replies use `nil` for
"no signature"; we use `Option Sig` for that. -/
abbrev Sig := Bytes

/-- A transaction, opaque for the generator's purposes. -/
abbrev Tx := Nat

/-- A ledger snapshot (`state.Snapshot`), opaque token. -/
abbrev Snapshot := Nat

/-- `legacy.Block`: height, transactions, the consensus program carried
for the next block, and the witness (sequence of signatures). -/
structure Block where
  height : Nat
  transactions : List Tx
  consensusProgram : Bytes
  witness : List Sig
  deriving Repr, DecidableEq

/-- Modelled from the spec: `legacy.Block.Hash`, "a content hash derived
deterministically from all fields except the witness".  The concrete
encoding is irrelevant; what matters is that it is a function of the
block's non-witness fields only. -/
def hashBytes (b : Block) : Bytes :=
  0 :: b.height :: b.transactions.length :: (b.transactions ++ 0 :: b.consensusProgram)

/-- Modelled from the spec: `legacy.Block.MarshalText`, the "canonical
signable byte representation: a deterministic encoding excluding the
witness field".  `MarshalText` is not part of the reviewed source; we
model it as a deterministic function of the non-witness fields. -/
def marshalBlock (b : Block) : Bytes :=
  1 :: b.height :: b.transactions.length :: (b.transactions ++ 1 :: b.consensusProgram)

/-- Every distinguishable error kind produced by the generator core.
Go wraps errors with context strings; we keep the kinds as constructors. -/
inductive GenErr where
  /-- wrapped store-read failure ("retrieving the pending block") -/
  | pendingReadErr
  /-- wrapped `chain.GenerateBlock` failure ("generate") -/
  | generateErr
  /-- wrapped db.Exec failure in `savePendingBlock` -/
  | saveIOErr
  /-- `errDuplicateBlock`: conditional upsert affected zero rows -/
  | duplicateBlock
  /-- `log.Fatalkv`: applying a recovered pending block failed (process-fatal) -/
  | fatalApply
  /-- nil-pointer dereference: no previous block but height ≠ 1 -/
  | nilPrevBlock
  /-- wrapped `vmutil.ParseBlockMultiSigProgram` failure -/
  | parseErr
  /-- `errTooFewSigners` -/
  | tooFewSigners
  /-- `fmt.Errorf("got %d of %d needed signatures", nready, quorum)` -/
  | collectErr (got needed : Nat)
  /-- wrapped `chain.CommitAppliedBlock` failure ("commit") -/
  | commitErr
  deriving Repr, DecidableEq

/-- The single durable row of `generator_pending_block`: columns
`data` and `height` (`height` is nullable — the SQL uses
`COALESCE(generator_pending_block.height, 0)`). -/
structure PendingRow where
  data : Block
  height : Option Nat
  deriving Repr, DecidableEq

/-- The effective height the SQL compares against:
`COALESCE(height, 0)`. -/
def PendingRow.effHeight (r : PendingRow) : Nat :=
  r.height.getD 0

/-- Result of `savePendingBlock`. -/
inductive SaveResult where
  /-- the row was inserted or replaced -/
  | ok
  /-- `errDuplicateBlock` (zero rows affected) -/
  | duplicateBlock
  /-- a wrapped db.Exec / RowsAffected failure -/
  | ioError
  deriving Repr, DecidableEq

/-- `savePendingBlock`: the conditional upsert
`INSERT ... ON CONFLICT (singleton) DO UPDATE SET ... WHERE
COALESCE(generator_pending_block.height, 0) < excluded.height`.
The row-store semantics is modelled from the spec ("compare-and-swap
style store operation"); `execFail` models a failing `db.Exec`.
Returns the new store contents and the function's result. -/
def savePendingBlock (execFail : Bool) (store : Option PendingRow) (b : Block) :
    Option PendingRow × SaveResult :=
  if execFail then (store, .ioError)
  else
    match store with
    | none => (some ⟨b, some b.height⟩, .ok)
    | some r =>
        if r.effHeight < b.height then (some ⟨b, some b.height⟩, .ok)
        else (some r, .duplicateBlock)

/-- `getPendingBlock`: `SELECT data FROM generator_pending_block`;
`sql.ErrNoRows` becomes `none`.  (The read-failure path is modelled by
a flag in the environment of `MakeBlock`.) -/
def getPendingBlock (store : Option PendingRow) : Option Block :=
  store.map PendingRow.data

/-- The scan inside `indexKey`: position of the first key under which
the signature verifies, if any. -/
def findKeyIdx (verify : PubKey → Bytes → Sig → Bool)
    (msg : Bytes) (sig : Sig) : List PubKey → Option Nat
  | [] => none
  | key :: rest =>
      if verify key msg sig then some 0
      else (findKeyIdx verify msg sig rest).map (· + 1)

/-- `indexKey`: scan the key set in order, return the index of the
first key under which the signature verifies, `-1` if none.
`verify` stands for `ed25519.Verify`. -/
def indexKey (verify : PubKey → Bytes → Sig → Bool)
    (keys : List PubKey) (msg : Bytes) (sig : Sig) : Int :=
  match findKeyIdx verify msg sig keys with
  | some i => (i : Int)
  | none => -1

/-- `nonNilSigs`: drop the `nil` entries of `goodSigs`, keeping order. -/
def nonNilSigs : List (Option Sig) → List Sig
  | [] => []
  | none :: rest => nonNilSigs rest
  | some p :: rest => p :: nonNilSigs rest

/-- The mutable state of the collection loop in
`getAndAddBlockSignatures`: the per-key slot array `goodSigs`, the
filled-slot count `nready`, and the signatures logged as
"invalid signature" protocol violations (most recent first order is
not observable; we append). -/
structure CollectState where
  goodSigs : List (Option Sig)
  nready : Nat
  violations : List Sig
  deriving Repr, DecidableEq

/-- One iteration body of the collection loop: process one completion
`sig` (`none` = the signer failed to produce a signature). -/
def collectStep (verify : PubKey → Bytes → Sig → Bool)
    (keys : List PubKey) (msg : Bytes)
    (st : CollectState) (reply : Option Sig) : CollectState :=
  match reply with
  | none => st
  | some sig =>
      let k := indexKey verify keys msg sig
      if 0 ≤ k ∧ st.goodSigs.getD k.toNat none = none then
        { st with goodSigs := st.goodSigs.set k.toNat (some sig),
                  nready := st.nready + 1 }
      else if k < 0 then
        { st with violations := st.violations ++ [sig] }
      else
        st

/-- The collection loop: consume completions in arrival order, at most
one per configured signer, stopping early once `nready` reaches the
quorum (`for i := 0; i < len(g.signers) && nready < quorum; i++`). -/
def collectLoop (verify : PubKey → Bytes → Sig → Bool)
    (keys : List PubKey) (msg : Bytes) (quorum : Nat) :
    List (Option Sig) → CollectState → CollectState
  | [], st => st
  | reply :: rest, st =>
      if st.nready < quorum then
        collectLoop verify keys msg quorum rest (collectStep verify keys msg st reply)
      else st

/-- The environment of one signature-collection round.
`verify` — Modelled from the spec: `ed25519.Verify` (not part of the
reviewed source), an arbitrary boolean verifier.
`parseProgram` — Modelled from the spec: `vmutil.ParseBlockMultiSigProgram`,
yielding "an ordered set of N public keys and a quorum threshold M",
`none` on parse failure.
`arrivals` — the completions read from the `done` channel in arrival
order, exactly one per configured `SignerClient` (so the configured
signer count is `arrivals.length`); `none` models a signer that failed
to produce a signature. -/
structure SignEnv where
  verify : PubKey → Bytes → Sig → Bool
  parseProgram : Bytes → Option (List PubKey × Nat)
  arrivals : List (Option Sig)

/-- What one run of `getAndAddBlockSignatures` did: its result (the
block with witness attached, on success), the `SignBlock` requests
issued (the message sent, one entry per launched goroutine), and the
signatures logged as protocol violations. -/
structure SignResult where
  res : Except GenErr Block
  requests : List Bytes
  violations : List Sig

/-- `getAndAddBlockSignatures`: parse the previous block's consensus
program, check the configured signer count against the quorum, fan out
one signing request per signer over the marshalled block, collect
completions until quorum or exhaustion, and attach the witness. -/
def getAndAddBlockSignatures (env : SignEnv) (b : Block) (prevBlock : Option Block) :
    SignResult :=
  if prevBlock = none ∧ b.height = 1 then
    ⟨.ok b, [], []⟩
  else
    match prevBlock with
    | none => ⟨.error .nilPrevBlock, [], []⟩
    | some pb =>
        match env.parseProgram pb.consensusProgram with
        | none => ⟨.error .parseErr, [], []⟩
        | some (pubkeys, quorum) =>
            if env.arrivals.length < quorum then
              ⟨.error .tooFewSigners, [], []⟩
            else
              let hashForSig := hashBytes b
              let marshalled := marshalBlock b
              let requests := List.replicate env.arrivals.length marshalled
              let init : CollectState := ⟨List.replicate pubkeys.length none, 0, []⟩
              let fin := collectLoop env.verify pubkeys hashForSig quorum env.arrivals init
              if fin.nready < quorum then
                ⟨.error (.collectErr fin.nready quorum), requests, fin.violations⟩
              else
                ⟨.ok { b with witness := nonNilSigs fin.goodSigs }, requests, fin.violations⟩

/-- The final state of the collection loop inside
`getAndAddBlockSignatures`, when run with key set `pubkeys` and
threshold `quorum` over candidate block `b` (initial state: all slots
empty, `nready = 0`). -/
def collectFinal (env : SignEnv) (b : Block) (pubkeys : List PubKey) (quorum : Nat) :
    CollectState :=
  collectLoop env.verify pubkeys (hashBytes b) quorum env.arrivals
    { goodSigs := List.replicate pubkeys.length none, nready := 0, violations := [] }

/-- Observable steps of one `MakeBlock` cycle, in execution order. -/
inductive Event where
  /-- the pending block was reused (recovery path taken) -/
  | reusedPending
  /-- `chain.GenerateBlock` produced a fresh block -/
  | generatedFresh
  /-- the pending block was durably saved (`savePendingBlock` succeeded) -/
  | savedPending
  /-- a `SignBlock` request was issued with the given message -/
  | signRequest (msg : Bytes)
  /-- `chain.CommitAppliedBlock` was invoked -/
  | commitCalled
  deriving Repr, DecidableEq

/-- `commitBlock`: collect signatures, then hand the signed block and
its snapshot to `chain.CommitAppliedBlock` (Modelled from the spec:
the backend's "atomic apply-and-persist operation", success given by
`commitOk`).  Returns the Go function's `(error, []byte)` pair and the
events performed. -/
def commitBlock (sign : SignEnv) (commitOk : Block → Snapshot → Bool)
    (b : Block) (s : Snapshot) (prevBlock : Option Block) :
    Except GenErr Bytes × List Event :=
  let sr := getAndAddBlockSignatures sign b prevBlock
  match sr.res with
  | .error e => (.error e, sr.requests.map Event.signRequest)
  | .ok signedB =>
      let evs := sr.requests.map Event.signRequest ++ [Event.commitCalled]
      if commitOk signedB s then (.ok (hashBytes signedB), evs)
      else (.error .commitErr, evs)

/-- The environment of one `MakeBlock` cycle: the chain backend and
storage collaborators, all Modelled from the spec (§6, "external
interfaces"):
`headBlock`/`headSnapshot` — `g.chain.State()`;
`pendingReadFail` — a failing `SELECT` in `getPendingBlock`;
`copySnapshot` — `state.Copy`;
`applyBlock` — `Snapshot.ApplyBlock` (`none` = failure, which the code
treats as process-fatal);
`generate` — `chain.GenerateBlock(head, snapshot, time, txs)`;
`saveExecFail` — a failing `db.Exec` in `savePendingBlock`;
`commitOk` — whether `chain.CommitAppliedBlock` succeeds. -/
structure Env where
  headBlock : Option Block
  headSnapshot : Snapshot
  pendingReadFail : Bool
  copySnapshot : Snapshot → Snapshot
  applyBlock : Snapshot → Block → Option Snapshot
  generate : Option Block → Snapshot → Nat → List Tx → Option (Block × Snapshot)
  saveExecFail : Bool
  sign : SignEnv
  commitOk : Block → Snapshot → Bool

/-- What one `MakeBlock` cycle did: the returned `(error, []byte)`
pair, the final pending store and transaction pool, the events in
execution order, the candidate block handed to `commitBlock` (before
witness attachment) and the snapshot handed to it. -/
structure MBResult where
  ret : Except GenErr Bytes
  store : Option PendingRow
  pool : List Tx
  events : List Event
  candidate : Option Block
  snapUsed : Option Snapshot

/-- Recovery path of `MakeBlock`: copy the head snapshot, apply the
pending block (failure is process-fatal), then sign and commit. -/
def makeBlockReuse (env : Env) (pool : List Tx) (store : Option PendingRow)
    (b : Block) : MBResult :=
  match env.applyBlock (env.copySnapshot env.headSnapshot) b with
  | none =>
      { ret := .error .fatalApply, store := store, pool := pool,
        events := [.reusedPending], candidate := some b, snapUsed := none }
  | some s =>
      let (r, evs) := commitBlock env.sign env.commitOk b s env.headBlock
      { ret := r, store := store, pool := pool,
        events := .reusedPending :: evs, candidate := some b, snapUsed := some s }

/-- Fresh-generation path of `MakeBlock`: atomically swap out the
transaction pool, generate a block from it, return early if it is
empty, persist it, then sign and commit. -/
def makeBlockFresh (env : Env) (pool : List Tx) (store : Option PendingRow)
    (tme : Nat) : MBResult :=
  match env.generate env.headBlock env.headSnapshot tme pool with
  | none =>
      { ret := .error .generateErr, store := store, pool := [],
        events := [], candidate := none, snapUsed := none }
  | some (b, s) =>
      if b.transactions = [] then
        { ret := .ok (hashBytes b), store := store, pool := [],
          events := [.generatedFresh], candidate := some b, snapUsed := some s }
      else
        match savePendingBlock env.saveExecFail store b with
        | (store2, .ok) =>
            let (r, evs) := commitBlock env.sign env.commitOk b s env.headBlock
            { ret := r, store := store2, pool := [],
              events := .generatedFresh :: .savedPending :: evs,
              candidate := some b, snapUsed := some s }
        | (store2, .duplicateBlock) =>
            { ret := .error .duplicateBlock, store := store2, pool := [],
              events := [.generatedFresh], candidate := some b, snapUsed := some s }
        | (store2, .ioError) =>
            { ret := .error .saveIOErr, store := store2, pool := [],
              events := [.generatedFresh], candidate := some b, snapUsed := some s }

/-- `MakeBlock`: read the head state, try to recover a pending block
(reused iff it exists and `latestBlock == nil || b.Height ==
latestBlock.Height+1`), otherwise generate fresh; then sign and
commit.  `pool` and `store` are the generator's mutable pool and the
pending-block row. -/
def MakeBlock (env : Env) (pool : List Tx) (store : Option PendingRow)
    (tme : Nat) : MBResult :=
  if env.pendingReadFail then
    { ret := .error .pendingReadErr, store := store, pool := pool,
      events := [], candidate := none, snapUsed := none }
  else
    match getPendingBlock store with
    | some b =>
        if env.headBlock.all (fun hb => b.height = hb.height + 1) then
          makeBlockReuse env pool store b
        else
          makeBlockFresh env pool store tme
    | none => makeBlockFresh env pool store tme

/-! ## Concrete example instances (used to evaluate the definitions) -/

/-- A concrete verifier for examples: a signature is the key itself. -/
def demoVerify : PubKey → Bytes → Sig → Bool := fun key _ sig => key == sig

/-- A concrete consensus-program decoder for examples: first byte the
quorum, each remaining byte a single-byte public key. -/
def demoParse : Bytes → Option (List PubKey × Nat)
  | [] => none
  | q :: ks => some (ks.map (fun k => [k]), q)

/-- A demo candidate block at height 2 with one transaction. -/
def demoBlock : Block :=
  { height := 2, transactions := [7], consensusProgram := [2, 10, 20], witness := [] }

/-- A demo head block at height 1 whose consensus program requires a
2-of-2 quorum over keys `[10]` and `[20]`. -/
def demoHead : Block :=
  { height := 1, transactions := [3], consensusProgram := [2, 10, 20], witness := [] }

/-- A demo `MakeBlock` environment: head `demoHead`, both signers
producing valid signatures, every backend operation succeeding. -/
def demoEnv : Env :=
  { headBlock := some demoHead
    headSnapshot := 0
    pendingReadFail := false
    copySnapshot := fun s => s
    applyBlock := fun s _ => some (s + 1)
    generate := fun _ _ _ txs =>
      some ({ height := 2, transactions := txs,
              consensusProgram := [2, 10, 20], witness := [] }, 5)
    saveExecFail := false
    sign := { verify := demoVerify, parseProgram := demoParse,
              arrivals := [some [10], some [20]] }
    commitOk := fun _ _ => true }

/-- A demo environment whose signers return one unmatchable signature
and one failure, so collection falls short of the 2-of-2 quorum. -/
def demoEnvBad : Env :=
  { demoEnv with
    sign := { verify := demoVerify, parseProgram := demoParse,
              arrivals := [some [99], none] } }

/-- A demo environment with no head block yet (empty chain). -/
def demoEnvNoHead : Env :=
  { demoEnv with headBlock := none }

/-! ## Basic lemmas about the signature-matching helpers -/

theorem nonNilSigs_length (l : List (Option Sig)) :
    (nonNilSigs l).length = l.countP (fun o => o.isSome) := by
  induction l with
  | nil => simp [nonNilSigs]
  | cons a t ih => cases a <;> simp [nonNilSigs, List.countP_cons, ih]

theorem findKeyIdx_spec (verify : PubKey → Bytes → Sig → Bool) (msg : Bytes) (sig : Sig) :
    ∀ (ks : List PubKey) (i : Nat), findKeyIdx verify msg sig ks = some i →
      i < ks.length ∧ (∃ key, ks[i]? = some key ∧ verify key msg sig = true) ∧
        ∀ j, j < i → ∀ key, ks[j]? = some key → verify key msg sig = false := by
  intro ks
  induction ks with
  | nil => intro i h; simp [findKeyIdx] at h
  | cons key rest ih =>
      intro i h
      by_cases hv : verify key msg sig
      · simp only [findKeyIdx, hv, if_pos] at h
        obtain rfl : (0 : Nat) = i := by simpa using h
        exact ⟨by simp, ⟨key, by simp, hv⟩, by omega⟩
      · simp only [findKeyIdx, hv, if_neg, Bool.false_eq_true, not_false_eq_true,
          Option.map_eq_some'] at h
        obtain ⟨i', hi', rfl⟩ := h
        obtain ⟨hlt, ⟨k', hk', hvk⟩, hbefore⟩ := ih i' hi'
        refine ⟨by simpa using Nat.succ_lt_succ hlt, ⟨k', by simpa using hk', hvk⟩, ?_⟩
        intro j hj key' hkey'
        cases j with
        | zero =>
            simp only [List.getElem?_cons_zero, Option.some_inj] at hkey'
            subst hkey'
            simpa using hv
        | succ j' =>
            exact hbefore j' (by omega) key' (by simpa using hkey')

theorem indexKey_eq_coe {verify : PubKey → Bytes → Sig → Bool} {msg : Bytes} {sig : Sig}
    {keys : List PubKey} {i : Nat} (h : findKeyIdx verify msg sig keys = some i) :
    indexKey verify keys msg sig = (i : Int) := by
  simp [indexKey, h]

theorem indexKey_eq_neg_one {verify : PubKey → Bytes → Sig → Bool} {msg : Bytes} {sig : Sig}
    {keys : List PubKey} (h : findKeyIdx verify msg sig keys = none) :
    indexKey verify keys msg sig = -1 := by
  simp [indexKey, h]

theorem findKeyIdx_of_nonneg {verify : PubKey → Bytes → Sig → Bool} {msg : Bytes} {sig : Sig}
    {keys : List PubKey} (h : 0 ≤ indexKey verify keys msg sig) :
    findKeyIdx verify msg sig keys = some (indexKey verify keys msg sig).toNat := by
  cases hf : findKeyIdx verify msg sig keys with
  | none => rw [indexKey_eq_neg_one hf] at h; omega
  | some i => rw [indexKey_eq_coe hf]; simp

/-! ## Invariants of the collection loop -/

theorem collectStep_cases (verify : PubKey → Bytes → Sig → Bool) (keys : List PubKey)
    (msg : Bytes) (st : CollectState) (a : Option Sig) :
    ((collectStep verify keys msg st a).goodSigs = st.goodSigs ∧
      (collectStep verify keys msg st a).nready = st.nready) ∨
    (∃ sig, a = some sig ∧ 0 ≤ indexKey verify keys msg sig ∧
      st.goodSigs.getD (indexKey verify keys msg sig).toNat none = none ∧
      collectStep verify keys msg st a =
        { st with goodSigs := st.goodSigs.set (indexKey verify keys msg sig).toNat (some sig),
                  nready := st.nready + 1 }) := by
  cases a with
  | none => exact Or.inl ⟨rfl, rfl⟩
  | some sig =>
      simp only [collectStep]
      split
      · next h => exact Or.inr ⟨sig, rfl, h.1, h.2, rfl⟩
      · split
        · exact Or.inl ⟨rfl, rfl⟩
        · exact Or.inl ⟨rfl, rfl⟩

theorem collectStep_goodSigs_length (verify : PubKey → Bytes → Sig → Bool) (keys : List PubKey)
    (msg : Bytes) (st : CollectState) (a : Option Sig) :
    ((collectStep verify keys msg st a).goodSigs).length = st.goodSigs.length := by
  rcases collectStep_cases verify keys msg st a with ⟨hg, _⟩ | ⟨sig, _, _, _, heq⟩
  · rw [hg]
  · rw [heq]; simp

theorem collectStep_nready_le (verify : PubKey → Bytes → Sig → Bool) (keys : List PubKey)
    (msg : Bytes) (st : CollectState) (a : Option Sig) :
    st.nready ≤ (collectStep verify keys msg st a).nready ∧
      (collectStep verify keys msg st a).nready ≤ st.nready + 1 := by
  rcases collectStep_cases verify keys msg st a with ⟨_, hn⟩ | ⟨sig, _, _, _, heq⟩
  · omega
  · rw [heq]; simp

theorem collectLoop_goodSigs_length (verify : PubKey → Bytes → Sig → Bool) (keys : List PubKey)
    (msg : Bytes) (quorum : Nat) :
    ∀ (arrivals : List (Option Sig)) (st : CollectState),
      ((collectLoop verify keys msg quorum arrivals st).goodSigs).length =
        st.goodSigs.length := by
  intro arrivals
  induction arrivals with
  | nil => intro st; rfl
  | cons a rest ih =>
      intro st
      simp only [collectLoop]
      split
      · rw [ih]; exact collectStep_goodSigs_length verify keys msg st a
      · rfl

theorem collectLoop_nready_mono (verify : PubKey → Bytes → Sig → Bool) (keys : List PubKey)
    (msg : Bytes) (quorum : Nat) :
    ∀ (arrivals : List (Option Sig)) (st : CollectState),
      st.nready ≤ (collectLoop verify keys msg quorum arrivals st).nready := by
  intro arrivals
  induction arrivals with
  | nil => intro st; exact le_rfl
  | cons a rest ih =>
      intro st
      simp only [collectLoop]
      split
      · exact le_trans (collectStep_nready_le verify keys msg st a).1 (ih _)
      · exact le_rfl

theorem collectLoop_nready_le (verify : PubKey → Bytes → Sig → Bool) (keys : List PubKey)
    (msg : Bytes) (quorum : Nat) :
    ∀ (arrivals : List (Option Sig)) (st : CollectState),
      st.nready ≤ quorum →
        (collectLoop verify keys msg quorum arrivals st).nready ≤ quorum := by
  intro arrivals
  induction arrivals with
  | nil => intro st h; exact h
  | cons a rest ih =>
      intro st h
      simp only [collectLoop]
      split
      · next hlt => exact ih _ (le_trans (collectStep_nready_le verify keys msg st a).2 (by omega))
      · exact h

theorem countP_set_some {l : List (Option Sig)} {i : Nat} {x : Sig}
    (h : l[i]? = some none) :
    (l.set i (some x)).countP (fun o => o.isSome) =
      l.countP (fun o => o.isSome) + 1 := by
  induction l generalizing i with
  | nil => simp at h
  | cons a t ih =>
      cases i with
      | zero =>
          simp only [List.getElem?_cons_zero, Option.some_inj] at h
          subst h
          simp [List.countP_cons]
      | succ i' =>
          simp only [List.getElem?_cons_succ] at h
          simp [List.countP_cons, ih h, Nat.add_right_comm]

theorem collectStep_count (verify : PubKey → Bytes → Sig → Bool) (keys : List PubKey)
    (msg : Bytes) (st : CollectState) (a : Option Sig)
    (hlen : st.goodSigs.length = keys.length)
    (h : st.nready = st.goodSigs.countP (fun o => o.isSome)) :
    (collectStep verify keys msg st a).nready =
      ((collectStep verify keys msg st a).goodSigs).countP (fun o => o.isSome) := by
  rcases collectStep_cases verify keys msg st a with ⟨hg, hn⟩ | ⟨sig, _, hpos, hempty, heq⟩
  · rw [hg, hn, h]
  · rw [heq]
    simp only
    have hfind := findKeyIdx_of_nonneg hpos
    obtain ⟨hlt, _, _⟩ := findKeyIdx_spec verify msg sig keys _ hfind
    have hrange : (indexKey verify keys msg sig).toNat < st.goodSigs.length := by omega
    have hget : st.goodSigs[(indexKey verify keys msg sig).toNat]? = some none := by
      rw [List.getD_eq_getElem?_getD] at hempty
      cases hg : st.goodSigs[(indexKey verify keys msg sig).toNat]? with
      | none => exact absurd (List.getElem?_eq_none_iff.mp hg) (by omega)
      | some y => rw [hg] at hempty; simp at hempty; rw [hempty]
    rw [countP_set_some hget, h]

theorem collectLoop_count (verify : PubKey → Bytes → Sig → Bool) (keys : List PubKey)
    (msg : Bytes) (quorum : Nat) :
    ∀ (arrivals : List (Option Sig)) (st : CollectState),
      st.goodSigs.length = keys.length →
      st.nready = st.goodSigs.countP (fun o => o.isSome) →
      (collectLoop verify keys msg quorum arrivals st).nready =
        ((collectLoop verify keys msg quorum arrivals st).goodSigs).countP
          (fun o => o.isSome) := by
  intro arrivals
  induction arrivals with
  | nil => intro st _ h; exact h
  | cons a rest ih =>
      intro st hlen h
      simp only [collectLoop]
      split
      · exact ih _ (by rw [collectStep_goodSigs_length, hlen])
          (collectStep_count verify keys msg st a hlen h)
      · exact h

theorem collectStep_sound (verify : PubKey → Bytes → Sig → Bool) (keys : List PubKey)
    (msg : Bytes) (st : CollectState) (a : Option Sig)
    (hlen : st.goodSigs.length = keys.length)
    (hs : ∀ (k : Nat) (sig : Sig), st.goodSigs[k]? = some (some sig) →
      indexKey verify keys msg sig = (k : Int)) :
    ∀ (k : Nat) (sig : Sig),
      ((collectStep verify keys msg st a).goodSigs)[k]? = some (some sig) →
      indexKey verify keys msg sig = (k : Int) := by
  rcases collectStep_cases verify keys msg st a with ⟨hg, _⟩ | ⟨sig₀, _, hpos, hempty, heq⟩
  · rw [hg]; exact hs
  · rw [heq]
    simp only
    intro k sig hk
    have hfind := findKeyIdx_of_nonneg hpos
    obtain ⟨hlt, _, _⟩ := findKeyIdx_spec verify msg sig₀ keys _ hfind
    by_cases hki : k = (indexKey verify keys msg sig₀).toNat
    · subst hki
      rw [List.getElem?_set_eq (by omega)] at hk
      have : sig = sig₀ := by simpa using hk.symm
      subst this
      omega
    · rw [List.getElem?_set_ne (by omega)] at hk
      exact hs k sig hk

theorem collectLoop_sound (verify : PubKey → Bytes → Sig → Bool) (keys : List PubKey)
    (msg : Bytes) (quorum : Nat) :
    ∀ (arrivals : List (Option Sig)) (st : CollectState),
      st.goodSigs.length = keys.length →
      (∀ (k : Nat) (sig : Sig), st.goodSigs[k]? = some (some sig) →
        indexKey verify keys msg sig = (k : Int)) →
      ∀ (k : Nat) (sig : Sig),
        ((collectLoop verify keys msg quorum arrivals st).goodSigs)[k]? = some (some sig) →
        indexKey verify keys msg sig = (k : Int) := by
  intro arrivals
  induction arrivals with
  | nil => intro st _ hs; exact hs
  | cons a rest ih =>
      intro st hlen hs
      simp only [collectLoop]
      split
      · exact ih _ (by rw [collectStep_goodSigs_length, hlen])
          (collectStep_sound verify keys msg st a hlen hs)
      · exact hs

theorem length_le_filter_of_pairwise {g : Sig → Nat} {l : List Sig}
    (hpw : l.Pairwise (fun a b => g a ≠ g b)) (c : Nat) :
    l.length ≤ (l.filter (fun s => g s != c)).length + 1 := by
  induction hpw with
  | nil => simp
  | @cons s t hhead _ ih =>
      by_cases hgs : g s = c
      · have hkeep : t.filter (fun x => g x != c) = t := by
          apply List.filter_eq_self.mpr
          intro b hb
          simp only [bne_iff_ne, ne_eq, decide_not]
          simpa using fun hc => hhead b hb (hgs.trans hc.symm)
        have hdrop : (g s != c) = false := by simp [hgs]
        simp [List.filter_cons, hdrop, hkeep]
      · have hs : (g s != c) = true := by simpa using hgs
        simp only [List.filter_cons, hs, if_pos, List.length_cons]
        omega

theorem collectLoop_reach (verify : PubKey → Bytes → Sig → Bool) (keys : List PubKey)
    (msg : Bytes) (quorum : Nat) :
    ∀ (arrivals : List (Option Sig)) (st : CollectState) (special : List Sig),
      List.Sublist (special.map some) arrivals →
      (∀ s ∈ special, 0 ≤ indexKey verify keys msg s) →
      special.Pairwise (fun a b =>
        (indexKey verify keys msg a).toNat ≠ (indexKey verify keys msg b).toNat) →
      (∀ s ∈ special, st.goodSigs.getD (indexKey verify keys msg s).toNat none = none) →
      min quorum (st.nready + special.length) ≤
        (collectLoop verify keys msg quorum arrivals st).nready := by
  intro arrivals
  induction arrivals with
  | nil =>
      intro st special hsub _ _ _
      have hnil : special = [] := by simpa using List.sublist_nil.mp hsub
      subst hnil
      simpa [collectLoop] using min_le_right quorum st.nready
  | cons a rest ih =>
      intro st special hsub hpos hpw hunf
      simp only [collectLoop]
      split
      case isFalse hq =>
        exact le_trans (min_le_left _ _) (by omega)
      case isTrue hq =>
        cases special with
        | nil =>
            have h1 := (collectStep_nready_le verify keys msg st a).1
            have h2 := collectLoop_nready_mono verify keys msg quorum rest
              (collectStep verify keys msg st a)
            exact le_trans (min_le_right _ _)
              (by simp only [List.length_nil, Nat.add_zero]; omega)
        | cons s stail =>
            rw [List.map_cons] at hsub
            cases hsub with
            | cons _ h' =>
                rcases collectStep_cases verify keys msg st a with
                  ⟨hg, hn⟩ | ⟨sig₀, haeq, hpos₀, hemp₀, heq⟩
                · have hmain := ih (collectStep verify keys msg st a) (s :: stail)
                    (by rw [List.map_cons]; exact h') hpos hpw (by rw [hg]; exact hunf)
                  rw [hn] at hmain
                  exact hmain
                · have hsub₂ :
                      (((s :: stail).filter (fun x =>
                        (indexKey verify keys msg x).toNat ≠
                          (indexKey verify keys msg sig₀).toNat)).map some).Sublist rest := by
                    have h1 : List.Sublist
                        (((s :: stail).filter (fun x =>
                          (indexKey verify keys msg x).toNat ≠
                            (indexKey verify keys msg sig₀).toNat)).map some)
                        ((s :: stail).map some) :=
                      List.Sublist.map some (List.filter_sublist _)
                    exact h1.trans (by rw [List.map_cons]; exact h')
                  have hpos₂ : ∀ x ∈ (s :: stail).filter (fun x =>
                      (indexKey verify keys msg x).toNat ≠
                        (indexKey verify keys msg sig₀).toNat),
                      0 ≤ indexKey verify keys msg x :=
                    fun x hx => hpos x (List.mem_of_mem_filter hx)
                  have hpw₂ : ((s :: stail).filter (fun x =>
                      (indexKey verify keys msg x).toNat ≠
                        (indexKey verify keys msg sig₀).toNat)).Pairwise (fun a b =>
                      (indexKey verify keys msg a).toNat ≠
                        (indexKey verify keys msg b).toNat) :=
                    List.Pairwise.sublist (List.filter_sublist _) hpw
                  have hunf₂ : ∀ x ∈ (s :: stail).filter (fun x =>
                      (indexKey verify keys msg x).toNat ≠
                        (indexKey verify keys msg sig₀).toNat),
                      (collectStep verify keys msg st a).goodSigs.getD
                        (indexKey verify keys msg x).toNat none = none := by
                    intro x hx
                    obtain ⟨hmem, hne⟩ := List.mem_filter.mp hx
                    have hnec : (indexKey verify keys msg x).toNat ≠
                        (indexKey verify keys msg sig₀).toNat := by simpa using hne
                    rw [heq]
                    simp only
                    rw [List.getD_eq_getElem?_getD,
                      List.getElem?_set_ne (Ne.symm hnec),
                      ← List.getD_eq_getElem?_getD]
                    exact hunf x hmem
                  have hlen₂ : (s :: stail).length ≤
                      ((s :: stail).filter (fun x =>
                        (indexKey verify keys msg x).toNat ≠
                          (indexKey verify keys msg sig₀).toNat)).length + 1 := by
                    have := length_le_filter_of_pairwise hpw
                      (indexKey verify keys msg sig₀).toNat
                    simpa [bne_iff_ne] using this
                  have hmain := ih (collectStep verify keys msg st a) _ hsub₂ hpos₂ hpw₂ hunf₂
                  have hn2 : (collectStep verify keys msg st a).nready =
                      st.nready + 1 := by rw [heq]
                  rw [hn2] at hmain
                  refine le_trans (min_le_min le_rfl ?_) hmain
                  simp only [List.length_cons] at hlen₂ ⊢
                  omega
            | cons₂ _ h' =>
                have hcond : 0 ≤ indexKey verify keys msg s ∧
                    st.goodSigs.getD (indexKey verify keys msg s).toNat none = none :=
                  ⟨hpos s (by simp), hunf s (by simp)⟩
                have hstep : collectStep verify keys msg st (some s) =
                    { st with
                      goodSigs :=
                        st.goodSigs.set (indexKey verify keys msg s).toNat (some s),
                      nready := st.nready + 1 } := by
                  simp only [collectStep]
                  split
                  · rfl
                  · next h => exact absurd hcond h
                obtain ⟨hhead, hpwtail⟩ := List.pairwise_cons.mp hpw
                have hmain := ih (collectStep verify keys msg st (some s)) stail h'
                  (fun x hx => hpos x (by simp [hx]))
                  hpwtail
                  (by
                    intro x hx
                    rw [hstep]
                    simp only
                    rw [List.getD_eq_getElem?_getD,
                      List.getElem?_set_ne (hhead x hx),
                      ← List.getD_eq_getElem?_getD]
                    exact hunf x (by simp [hx]))
                have hn : (collectStep verify keys msg st (some s)).nready =
                    st.nready + 1 := by rw [hstep]
                rw [hn] at hmain
                refine le_trans (le_of_eq ?_) hmain
                have harith : st.nready + (s :: stail).length =
                    st.nready + 1 + stail.length := by
                  simp only [List.length_cons]; omega
                rw [harith]

/-! ## Unfolding and path lemmas -/

theorem getAndAdd_quorum_reached (env : SignEnv) (b pb : Block)
    {pubkeys : List PubKey} {quorum : Nat}
    (hparse : env.parseProgram pb.consensusProgram = some (pubkeys, quorum))
    (hlen : quorum ≤ env.arrivals.length)
    (hq : ¬ (collectFinal env b pubkeys quorum).nready < quorum) :
    getAndAddBlockSignatures env b (some pb) =
      ⟨.ok { b with witness := nonNilSigs (collectFinal env b pubkeys quorum).goodSigs },
        List.replicate env.arrivals.length (marshalBlock b),
        (collectFinal env b pubkeys quorum).violations⟩ := by
  have h1 : ¬ env.arrivals.length < quorum := Nat.not_lt.mpr hlen
  have hq' := hq
  simp only [collectFinal] at hq'
  simp [getAndAddBlockSignatures, collectFinal, hparse, h1, hq']

theorem getAndAdd_quorum_missed (env : SignEnv) (b pb : Block)
    {pubkeys : List PubKey} {quorum : Nat}
    (hparse : env.parseProgram pb.consensusProgram = some (pubkeys, quorum))
    (hlen : quorum ≤ env.arrivals.length)
    (hq : (collectFinal env b pubkeys quorum).nready < quorum) :
    getAndAddBlockSignatures env b (some pb) =
      ⟨.error (.collectErr (collectFinal env b pubkeys quorum).nready quorum),
        List.replicate env.arrivals.length (marshalBlock b),
        (collectFinal env b pubkeys quorum).violations⟩ := by
  have h1 : ¬ env.arrivals.length < quorum := Nat.not_lt.mpr hlen
  have hq' := hq
  simp only [collectFinal] at hq'
  simp [getAndAddBlockSignatures, collectFinal, hparse, h1, hq']

theorem commitBlock_of_sign_error {sign : SignEnv} {cOk : Block → Snapshot → Bool}
    {b : Block} {s : Snapshot} {prev : Option Block} {e : GenErr}
    (h : (getAndAddBlockSignatures sign b prev).res = .error e) :
    commitBlock sign cOk b s prev =
      (.error e, (getAndAddBlockSignatures sign b prev).requests.map Event.signRequest) := by
  simp [commitBlock, h]

theorem commitBlock_of_sign_ok {sign : SignEnv} {cOk : Block → Snapshot → Bool}
    {b : Block} {s : Snapshot} {prev : Option Block} {signedB : Block}
    (h : (getAndAddBlockSignatures sign b prev).res = .ok signedB) :
    commitBlock sign cOk b s prev =
      (if cOk signedB s then .ok (hashBytes signedB) else .error .commitErr,
       (getAndAddBlockSignatures sign b prev).requests.map Event.signRequest ++
         [Event.commitCalled]) := by
  simp only [commitBlock, h]
  split <;> rfl

theorem commitBlock_events_mem {sign : SignEnv} {cOk : Block → Snapshot → Bool}
    {b : Block} {s : Snapshot} {prev : Option Block} :
    ∀ e ∈ (commitBlock sign cOk b s prev).2,
      (∃ m, e = Event.signRequest m) ∨ e = Event.commitCalled := by
  intro e he
  cases h : (getAndAddBlockSignatures sign b prev).res with
  | error e' =>
      rw [commitBlock_of_sign_error h] at he
      simp only [List.mem_map] at he
      obtain ⟨m, _, rfl⟩ := he
      exact Or.inl ⟨m, rfl⟩
  | ok b' =>
      rw [commitBlock_of_sign_ok h] at he
      simp only [List.mem_append, List.mem_map, List.mem_singleton] at he
      rcases he with ⟨m, _, rfl⟩ | rfl
      · exact Or.inl ⟨m, rfl⟩
      · exact Or.inr rfl

theorem commitCalled_not_mem_of_sign_error {sign : SignEnv} {cOk : Block → Snapshot → Bool}
    {b : Block} {s : Snapshot} {prev : Option Block} {e : GenErr}
    (h : (getAndAddBlockSignatures sign b prev).res = .error e) :
    Event.commitCalled ∉ (commitBlock sign cOk b s prev).2 := by
  rw [commitBlock_of_sign_error h]
  simp

theorem MakeBlock_eq_fresh_of_no_pending {env : Env} {pool : List Tx}
    {store : Option PendingRow} {tme : Nat}
    (h1 : env.pendingReadFail = false) (h2 : getPendingBlock store = none) :
    MakeBlock env pool store tme = makeBlockFresh env pool store tme := by
  simp [MakeBlock, h1, h2]

theorem MakeBlock_eq_fresh_of_stale {env : Env} {pool : List Tx}
    {store : Option PendingRow} {tme : Nat} {b : Block}
    (h1 : env.pendingReadFail = false) (h2 : getPendingBlock store = some b)
    (h3 : env.headBlock.all (fun hb => b.height = hb.height + 1) = false) :
    MakeBlock env pool store tme = makeBlockFresh env pool store tme := by
  simp [MakeBlock, h1, h2, h3]

theorem MakeBlock_eq_reuse {env : Env} {pool : List Tx}
    {store : Option PendingRow} {tme : Nat} {b : Block}
    (h1 : env.pendingReadFail = false) (h2 : getPendingBlock store = some b)
    (h3 : env.headBlock.all (fun hb => b.height = hb.height + 1) = true) :
    MakeBlock env pool store tme = makeBlockReuse env pool store b := by
  simp [MakeBlock, h1, h2, h3]

theorem makeBlockReuse_apply_ok {env : Env} {pool : List Tx}
    {store : Option PendingRow} {b : Block} {s : Snapshot}
    (happly : env.applyBlock (env.copySnapshot env.headSnapshot) b = some s) :
    makeBlockReuse env pool store b =
      { ret := (commitBlock env.sign env.commitOk b s env.headBlock).1,
        store := store, pool := pool,
        events := .reusedPending :: (commitBlock env.sign env.commitOk b s env.headBlock).2,
        candidate := some b, snapUsed := some s } := by
  simp [makeBlockReuse, happly]

theorem makeBlockFresh_empty {env : Env} {pool : List Tx}
    {store : Option PendingRow} {tme : Nat} {b : Block} {s : Snapshot}
    (hgen : env.generate env.headBlock env.headSnapshot tme pool = some (b, s))
    (hempty : b.transactions = []) :
    makeBlockFresh env pool store tme =
      { ret := .ok (hashBytes b), store := store, pool := [],
        events := [.generatedFresh], candidate := some b, snapUsed := some s } := by
  simp [makeBlockFresh, hgen, hempty]

theorem makeBlockFresh_save_ok {env : Env} {pool : List Tx}
    {store store2 : Option PendingRow} {tme : Nat} {b : Block} {s : Snapshot}
    (hgen : env.generate env.headBlock env.headSnapshot tme pool = some (b, s))
    (hne : b.transactions ≠ [])
    (hsave : savePendingBlock env.saveExecFail store b = (store2, .ok)) :
    makeBlockFresh env pool store tme =
      { ret := (commitBlock env.sign env.commitOk b s env.headBlock).1,
        store := store2, pool := [],
        events := .generatedFresh :: .savedPending ::
          (commitBlock env.sign env.commitOk b s env.headBlock).2,
        candidate := some b, snapUsed := some s } := by
  simp [makeBlockFresh, hgen, hne, hsave]

theorem makeBlockFresh_save_dup {env : Env} {pool : List Tx}
    {store store2 : Option PendingRow} {tme : Nat} {b : Block} {s : Snapshot}
    (hgen : env.generate env.headBlock env.headSnapshot tme pool = some (b, s))
    (hne : b.transactions ≠ [])
    (hsave : savePendingBlock env.saveExecFail store b = (store2, .duplicateBlock)) :
    makeBlockFresh env pool store tme =
      { ret := .error .duplicateBlock, store := store2, pool := [],
        events := [.generatedFresh], candidate := some b, snapUsed := some s } := by
  simp [makeBlockFresh, hgen, hne, hsave]

theorem makeBlockFresh_save_io {env : Env} {pool : List Tx}
    {store store2 : Option PendingRow} {tme : Nat} {b : Block} {s : Snapshot}
    (hgen : env.generate env.headBlock env.headSnapshot tme pool = some (b, s))
    (hne : b.transactions ≠ [])
    (hsave : savePendingBlock env.saveExecFail store b = (store2, .ioError)) :
    makeBlockFresh env pool store tme =
      { ret := .error .saveIOErr, store := store2, pool := [],
        events := [.generatedFresh], candidate := some b, snapUsed := some s } := by
  simp [makeBlockFresh, hgen, hne, hsave]

theorem countP_replicate_none (n : Nat) :
    (List.replicate n (none : Option Sig)).countP (fun o => o.isSome) = 0 := by
  rw [List.countP_eq_zero]
  intro a ha
  rw [List.eq_of_mem_replicate ha]
  simp

theorem getD_replicate_none (n i : Nat) :
    (List.replicate n (none : Option Sig)).getD i none = none := by
  rw [List.getD_eq_getElem?_getD, List.getElem?_replicate]
  split <;> rfl

theorem generatedFresh_not_mem_commitBlock {sign : SignEnv}
    {cOk : Block → Snapshot → Bool} {b : Block} {s : Snapshot} {prev : Option Block} :
    Event.generatedFresh ∉ (commitBlock sign cOk b s prev).2 := by
  intro h
  rcases commitBlock_events_mem _ h with ⟨m, hm⟩ | hm <;> simp at hm

theorem findKeyIdx_distinct_keys {verify : PubKey → Bytes → Sig → Bool} {msg : Bytes}
    {keys : List PubKey} {j k : Nat} {sj sk : Sig}
    (hjk : j < k) (hj : findKeyIdx verify msg sj keys = some j)
    (hk : findKeyIdx verify msg sk keys = some k) :
    keys[j]? ≠ keys[k]? := by
  obtain ⟨hjlt, ⟨keyj, hkeyj, hvj⟩, _⟩ := findKeyIdx_spec verify msg sj keys j hj
  obtain ⟨hklt, ⟨keyk, hkeyk, hvk⟩, hbefore⟩ := findKeyIdx_spec verify msg sk keys k hk
  intro hcontra
  rw [hkeyj, hkeyk] at hcontra
  have hkeq : keyj = keyk := by simpa using hcontra
  have hzero := hbefore j hjk keyj hkeyj
  rw [hkeq] at hzero
  simp [hvk] at hzero

/-! ## Claim theorems -/

/-- Claim C3: `savePendingBlock` is a conditional upsert: absent a db
failure it succeeds and replaces the row if and only if no row exists or
the existing row's (COALESCEd) height is strictly below the new block's
height; otherwise the stored row is unchanged and the caller receives
`errDuplicateBlock`, a conflict signal distinct from I/O failure. -/
theorem savePendingBlock_conditional_upsert (store : Option PendingRow) (b : Block) :
    (savePendingBlock false store b = (some ⟨b, some b.height⟩, SaveResult.ok) ↔
      (store = none ∨ ∃ r, store = some r ∧ r.effHeight < b.height))
    ∧ (∀ r, store = some r → b.height ≤ r.effHeight →
        savePendingBlock false store b = (some r, SaveResult.duplicateBlock))
    ∧ SaveResult.duplicateBlock ≠ SaveResult.ioError := by
  refine ⟨⟨?_, ?_⟩, ?_, by simp⟩
  · intro h
    cases store with
    | none => exact Or.inl rfl
    | some r =>
        refine Or.inr ⟨r, rfl, ?_⟩
        by_contra hle
        simp [savePendingBlock, hle] at h
  · rintro (rfl | ⟨r, rfl, hlt⟩)
    · rfl
    · simp [savePendingBlock, hlt]
  · rintro r rfl hle
    simp [savePendingBlock, Nat.not_lt.mpr hle]

/-- Witness for C3 at a concrete input: a second write at the same
height is a conflict no-op. -/
theorem savePendingBlock_conditional_upsert_witness :
    savePendingBlock false (some ⟨demoBlock, some 2⟩) demoBlock =
      (some ⟨demoBlock, some 2⟩, SaveResult.duplicateBlock) :=
  (savePendingBlock_conditional_upsert (some ⟨demoBlock, some 2⟩) demoBlock).2.1
    ⟨demoBlock, some 2⟩ rfl (by decide)

/-- Claim C10: a received signature that verifies under a key whose slot
is already filled is silently discarded — the collection state is left
completely unchanged (no count increment, no witness slot, no
protocol-violation log entry) — whereas a signature matching no key is
logged; and collection continues with the remaining replies. -/
theorem duplicate_slot_sig_discarded (verify : PubKey → Bytes → Sig → Bool)
    (keys : List PubKey) (msg : Bytes) (st : CollectState) (sig : Sig)
    (rest : List (Option Sig)) (quorum : Nat) :
    (0 ≤ indexKey verify keys msg sig →
      st.goodSigs.getD (indexKey verify keys msg sig).toNat none ≠ none →
      collectStep verify keys msg st (some sig) = st)
    ∧ (indexKey verify keys msg sig < 0 →
      collectStep verify keys msg st (some sig) =
        { st with violations := st.violations ++ [sig] })
    ∧ (st.nready < quorum →
      collectLoop verify keys msg quorum (some sig :: rest) st =
        collectLoop verify keys msg quorum rest (collectStep verify keys msg st (some sig))) := by
  refine ⟨?_, ?_, ?_⟩
  · intro hpos hfilled
    simp only [collectStep]
    rw [if_neg (fun hc => hfilled hc.2), if_neg (by omega)]
  · intro hneg
    simp only [collectStep]
    rw [if_neg ?_, if_pos hneg]
    rintro ⟨h0, _⟩
    omega
  · intro hlt
    simp only [collectLoop]
    rw [if_pos hlt]

/-- Witness for C10 at a concrete input: a second valid signature for
key `[10]` whose slot is already filled leaves the state unchanged. -/
theorem duplicate_slot_sig_discarded_witness :
    collectStep demoVerify [[10], [20]] (hashBytes demoBlock)
      { goodSigs := [some [10], none], nready := 1, violations := [] } (some [10]) =
      { goodSigs := [some [10], none], nready := 1, violations := [] } :=
  (duplicate_slot_sig_discarded demoVerify [[10], [20]] (hashBytes demoBlock)
      { goodSigs := [some [10], none], nready := 1, violations := [] } [10] [] 2).1
    (by decide) (by decide)

/-- Claim C6: with no previous block and a candidate of height 1,
signature collection succeeds immediately — no signing request, block
(and hence witness) unchanged — and the cycle goes straight to the
`CommitAppliedBlock` call. -/
theorem height_one_no_signatures (sign : SignEnv) (cOk : Block → Snapshot → Bool)
    (b : Block) (s : Snapshot) (hb : b.height = 1) :
    getAndAddBlockSignatures sign b none = ⟨.ok b, [], []⟩
    ∧ (commitBlock sign cOk b s none).2 = [Event.commitCalled]
    ∧ (commitBlock sign cOk b s none).1 =
        (if cOk b s then .ok (hashBytes b) else .error .commitErr) := by
  have h1 : getAndAddBlockSignatures sign b none = ⟨.ok b, [], []⟩ := by
    simp [getAndAddBlockSignatures, hb]
  have hres : (getAndAddBlockSignatures sign b none).res = .ok b := by rw [h1]
  refine ⟨h1, ?_, ?_⟩
  · rw [commitBlock_of_sign_ok hres, h1]
    simp
  · rw [commitBlock_of_sign_ok hres]

/-- Witness for C6 at a concrete input. -/
theorem height_one_no_signatures_witness :
    getAndAddBlockSignatures demoEnv.sign
        { height := 1, transactions := [4], consensusProgram := [2, 10, 20], witness := [] }
        none =
      ⟨.ok { height := 1, transactions := [4], consensusProgram := [2, 10, 20], witness := [] },
        [], []⟩ :=
  (height_one_no_signatures demoEnv.sign (fun _ _ => true)
      { height := 1, transactions := [4], consensusProgram := [2, 10, 20], witness := [] }
      0 rfl).1

/-- Claim C7: when fewer signer clients are configured than the quorum
parsed from the previous block's consensus program, signature collection
fails immediately with `errTooFewSigners` and no signing request is
issued; the failure propagates through `commitBlock` and `MakeBlock`
without any commit. -/
theorem too_few_signers_config_error (env : SignEnv) (b pb : Block)
    {pubkeys : List PubKey} {quorum : Nat}
    (hparse : env.parseProgram pb.consensusProgram = some (pubkeys, quorum))
    (hfew : env.arrivals.length < quorum) :
    getAndAddBlockSignatures env b (some pb) = ⟨.error .tooFewSigners, [], []⟩
    ∧ (∀ (cOk : Block → Snapshot → Bool) (s : Snapshot),
        commitBlock env cOk b s (some pb) = (.error .tooFewSigners, []))
    ∧ ∀ (genv : Env) (pool : List Tx) (store store2 : Option PendingRow) (tme : Nat)
        (b' : Block) (s : Snapshot),
        genv.pendingReadFail = false → getPendingBlock store = none →
        genv.sign = env → genv.headBlock = some pb →
        genv.generate genv.headBlock genv.headSnapshot tme pool = some (b', s) →
        b'.transactions ≠ [] →
        savePendingBlock genv.saveExecFail store b' = (store2, .ok) →
        (MakeBlock genv pool store tme).ret = .error .tooFewSigners ∧
        ∀ m, Event.signRequest m ∉ (MakeBlock genv pool store tme).events := by
  have h1 : ∀ c : Block,
      getAndAddBlockSignatures env c (some pb) = ⟨.error .tooFewSigners, [], []⟩ := by
    intro c
    simp [getAndAddBlockSignatures, hparse, hfew]
  have h2 : ∀ (cOk : Block → Snapshot → Bool) (s : Snapshot) (c : Block),
      commitBlock env cOk c s (some pb) = (.error .tooFewSigners, []) := by
    intro cOk s c
    rw [commitBlock_of_sign_error (by rw [h1 c]), h1 c]
    simp
  refine ⟨h1 b, fun cOk s => h2 cOk s b, ?_⟩
  intro genv pool store store2 tme b' s hread hstore hsign hhead hgen hne hsave
  rw [MakeBlock_eq_fresh_of_no_pending hread hstore,
    makeBlockFresh_save_ok hgen hne hsave]
  rw [hsign, hhead, h2 genv.commitOk s b']
  exact ⟨rfl, by simp⟩

/-- Witness for C7 at a concrete input: one configured signer, quorum 2. -/
theorem too_few_signers_config_error_witness :
    getAndAddBlockSignatures ⟨demoVerify, demoParse, [some [10]]⟩ demoBlock
        (some demoHead) = ⟨.error .tooFewSigners, [], []⟩ :=
  (too_few_signers_config_error ⟨demoVerify, demoParse, [some [10]]⟩ demoBlock demoHead
      rfl (by decide)).1

/-- Claim C8: the canonical signable bytes exclude the witness field —
`marshalBlock` is invariant under any change of witness, so a recovered
pending block or a repeated signing attempt over the same block yields
identical bytes — and every signing request issued in one collection
round carries exactly those bytes. -/
theorem canonical_bytes_stable (b : Block) (w : List Sig) (env : SignEnv)
    (prev : Option Block) :
    marshalBlock { b with witness := w } = marshalBlock b
    ∧ ∀ m ∈ (getAndAddBlockSignatures env b prev).requests, m = marshalBlock b := by
  refine ⟨rfl, ?_⟩
  have hcases : (getAndAddBlockSignatures env b prev).requests = [] ∨
      (getAndAddBlockSignatures env b prev).requests =
        List.replicate env.arrivals.length (marshalBlock b) := by
    cases prev with
    | none =>
        by_cases hb : b.height = 1
        · exact Or.inl (by simp [getAndAddBlockSignatures, hb])
        · exact Or.inl (by simp [getAndAddBlockSignatures, hb])
    | some pb =>
        cases hp : env.parseProgram pb.consensusProgram with
        | none => exact Or.inl (by simp [getAndAddBlockSignatures, hp])
        | some pq =>
            obtain ⟨pubkeys, quorum⟩ := pq
            by_cases hl : env.arrivals.length < quorum
            · exact Or.inl (by simp [getAndAddBlockSignatures, hp, hl])
            · right
              by_cases hq : (collectFinal env b pubkeys quorum).nready < quorum
              · rw [getAndAdd_quorum_missed env b pb hp (by omega) hq]
              · rw [getAndAdd_quorum_reached env b pb hp (by omega) hq]
  rcases hcases with h | h
  · rw [h]; simp
  · rw [h]; intro m hm; exact List.eq_of_mem_replicate hm

/-- Witness for C8 at a concrete input. -/
theorem canonical_bytes_stable_witness :
    marshalBlock demoBlock ∈
      (getAndAddBlockSignatures demoEnv.sign demoBlock (some demoHead)).requests
    ∧ marshalBlock demoBlock = marshalBlock demoBlock :=
  ⟨by decide,
   (canonical_bytes_stable demoBlock [] demoEnv.sign (some demoHead)).2
     (marshalBlock demoBlock) (by decide)⟩

/-- Claim C5: a freshly generated block with zero transactions makes
`MakeBlock` return its hash with no error, leaves the pending store
untouched, and causes neither a signing request nor a commit. -/
theorem empty_block_returns_hash (env : Env) (pool : List Tx)
    (store : Option PendingRow) (tme : Nat) (b : Block) (s : Snapshot)
    (hread : env.pendingReadFail = false)
    (hstore : getPendingBlock store = none)
    (hgen : env.generate env.headBlock env.headSnapshot tme pool = some (b, s))
    (hempty : b.transactions = []) :
    (MakeBlock env pool store tme).ret = .ok (hashBytes b)
    ∧ (MakeBlock env pool store tme).store = store
    ∧ Event.savedPending ∉ (MakeBlock env pool store tme).events
    ∧ (∀ m, Event.signRequest m ∉ (MakeBlock env pool store tme).events)
    ∧ Event.commitCalled ∉ (MakeBlock env pool store tme).events := by
  rw [MakeBlock_eq_fresh_of_no_pending hread hstore, makeBlockFresh_empty hgen hempty]
  refine ⟨rfl, rfl, by simp, by simp, by simp⟩

/-- Witness for C5 at a concrete input (`demoEnv.generate` over an
empty pool produces an empty block). -/
theorem empty_block_returns_hash_witness :
    (MakeBlock demoEnv [] none 0).ret =
        .ok (hashBytes
          { height := 2, transactions := [], consensusProgram := [2, 10, 20],
            witness := ([] : List Sig) })
    ∧ (MakeBlock demoEnv [] none 0).store = none :=
  ⟨(empty_block_returns_hash demoEnv [] none 0
      { height := 2, transactions := [], consensusProgram := [2, 10, 20], witness := [] }
      5 rfl rfl rfl rfl).1,
   (empty_block_returns_hash demoEnv [] none 0
      { height := 2, transactions := [], consensusProgram := [2, 10, 20], witness := [] }
      5 rfl rfl rfl rfl).2.1⟩

/-- Claim C9: on the fresh-generation path with a non-empty block, the
pending block is durably saved strictly before any signing request is
issued, and if the save does not succeed the cycle aborts with an error
without contacting any signer. -/
theorem persist_before_sign (env : Env) (pool : List Tx)
    (store : Option PendingRow) (tme : Nat) (b : Block) (s : Snapshot)
    (hgen : env.generate env.headBlock env.headSnapshot tme pool = some (b, s))
    (hne : b.transactions ≠ []) :
    (∀ store2, savePendingBlock env.saveExecFail store b = (store2, .ok) →
      ∃ pre post, (makeBlockFresh env pool store tme).events =
          pre ++ Event.savedPending :: post ∧
        ∀ m, Event.signRequest m ∉ pre)
    ∧ (∀ store2 r, savePendingBlock env.saveExecFail store b = (store2, r) →
        r ≠ .ok →
        (∀ m, Event.signRequest m ∉ (makeBlockFresh env pool store tme).events) ∧
        ∃ e, (makeBlockFresh env pool store tme).ret = .error e)
    ∧ (env.pendingReadFail = false → getPendingBlock store = none →
        MakeBlock env pool store tme = makeBlockFresh env pool store tme) := by
  refine ⟨?_, ?_, fun h1 h2 => MakeBlock_eq_fresh_of_no_pending h1 h2⟩
  · intro store2 hsave
    rw [makeBlockFresh_save_ok hgen hne hsave]
    exact ⟨[Event.generatedFresh], _, rfl, by simp⟩
  · intro store2 r hsave hr
    cases r with
    | ok => exact absurd rfl hr
    | duplicateBlock =>
        rw [makeBlockFresh_save_dup hgen hne hsave]
        exact ⟨by simp, ⟨.duplicateBlock, rfl⟩⟩
    | ioError =>
        rw [makeBlockFresh_save_io hgen hne hsave]
        exact ⟨by simp, ⟨.saveIOErr, rfl⟩⟩

/-- Witness for C9 at a concrete input. -/
theorem persist_before_sign_witness :
    MakeBlock demoEnv [1] none 0 = makeBlockFresh demoEnv [1] none 0 :=
  (persist_before_sign demoEnv [1] none 0
      { height := 2, transactions := [1], consensusProgram := [2, 10, 20], witness := [] }
      5 rfl (by decide)).2.2 rfl rfl

/-- Claim C2: whenever a signature-collection run over candidate `b`
fills fewer than `quorum` identity slots after consuming every signer
reply, collection fails with the transient error carrying the achieved
count and the required quorum, and `CommitAppliedBlock` is never
invoked — on any cycle tail (`commitBlock`), on the fresh-generation
path of `MakeBlock` (where the pending row written for the block stays
in place), and on the recovery path (where the stored pending record
likewise remains). -/
theorem collection_shortfall_not_committed
    (sign : SignEnv) (b pb : Block) {pubkeys : List PubKey} {quorum : Nat}
    (hparse : sign.parseProgram pb.consensusProgram = some (pubkeys, quorum))
    (hlen : quorum ≤ sign.arrivals.length)
    (hshort : (collectFinal sign b pubkeys quorum).nready < quorum) :
    (getAndAddBlockSignatures sign b (some pb)).res =
      .error (.collectErr (collectFinal sign b pubkeys quorum).nready quorum)
    ∧ (∀ (cOk : Block → Snapshot → Bool) (s : Snapshot),
        (commitBlock sign cOk b s (some pb)).1 =
          .error (.collectErr (collectFinal sign b pubkeys quorum).nready quorum)
        ∧ Event.commitCalled ∉ (commitBlock sign cOk b s (some pb)).2)
    ∧ (∀ (env : Env) (pool : List Tx) (store store2 : Option PendingRow)
        (tme : Nat) (s : Snapshot),
        env.pendingReadFail = false → getPendingBlock store = none →
        env.sign = sign → env.headBlock = some pb →
        env.generate env.headBlock env.headSnapshot tme pool = some (b, s) →
        b.transactions ≠ [] →
        savePendingBlock env.saveExecFail store b = (store2, .ok) →
        (MakeBlock env pool store tme).ret =
          .error (.collectErr (collectFinal sign b pubkeys quorum).nready quorum)
        ∧ Event.commitCalled ∉ (MakeBlock env pool store tme).events
        ∧ (MakeBlock env pool store tme).store = store2)
    ∧ (∀ (env : Env) (pool : List Tx) (store : Option PendingRow)
        (tme : Nat) (s : Snapshot),
        env.pendingReadFail = false → getPendingBlock store = some b →
        env.sign = sign → env.headBlock = some pb →
        b.height = pb.height + 1 →
        env.applyBlock (env.copySnapshot env.headSnapshot) b = some s →
        (MakeBlock env pool store tme).ret =
          .error (.collectErr (collectFinal sign b pubkeys quorum).nready quorum)
        ∧ Event.commitCalled ∉ (MakeBlock env pool store tme).events
        ∧ (MakeBlock env pool store tme).store = store) := by
  have hfull := getAndAdd_quorum_missed sign b pb hparse hlen hshort
  have hres : (getAndAddBlockSignatures sign b (some pb)).res =
      .error (.collectErr (collectFinal sign b pubkeys quorum).nready quorum) := by
    rw [hfull]
  have hcb : ∀ (cOk : Block → Snapshot → Bool) (s : Snapshot),
      (commitBlock sign cOk b s (some pb)).1 =
        .error (.collectErr (collectFinal sign b pubkeys quorum).nready quorum)
      ∧ Event.commitCalled ∉ (commitBlock sign cOk b s (some pb)).2 := by
    intro cOk s
    exact ⟨by rw [commitBlock_of_sign_error hres],
      commitCalled_not_mem_of_sign_error hres⟩
  refine ⟨hres, hcb, ?_, ?_⟩
  · intro env pool store store2 tme s hread hstore hsign hhead hgen hne hsave
    rw [MakeBlock_eq_fresh_of_no_pending hread hstore,
      makeBlockFresh_save_ok hgen hne hsave]
    refine ⟨?_, ?_, rfl⟩
    · show (commitBlock env.sign env.commitOk b s env.headBlock).1 = _
      rw [hsign, hhead]
      exact (hcb env.commitOk s).1
    · intro hmem
      simp only [List.mem_cons] at hmem
      rcases hmem with h | h | h
      · simp at h
      · simp at h
      · rw [hsign, hhead] at h
        exact (hcb env.commitOk s).2 h
  · intro env pool store tme s hread hstore hsign hhead hheight happly
    have h3 : env.headBlock.all (fun hb => b.height = hb.height + 1) = true := by
      rw [hhead]; simp [Option.all, hheight]
    rw [MakeBlock_eq_reuse hread hstore h3, makeBlockReuse_apply_ok happly]
    refine ⟨?_, ?_, rfl⟩
    · show (commitBlock env.sign env.commitOk b s env.headBlock).1 = _
      rw [hsign, hhead]
      exact (hcb env.commitOk s).1
    · intro hmem
      simp only [List.mem_cons] at hmem
      rcases hmem with h | h
      · simp at h
      · rw [hsign, hhead] at h
        exact (hcb env.commitOk s).2 h

/-- Witness for C2 at a concrete input: one unmatchable signature and
one absent reply against a 2-of-2 quorum, on the fresh-generation
path. -/
theorem collection_shortfall_not_committed_witness :
    (MakeBlock demoEnvBad [1] none 0).ret = .error (.collectErr 0 2)
    ∧ Event.commitCalled ∉ (MakeBlock demoEnvBad [1] none 0).events :=
  have h := (collection_shortfall_not_committed demoEnvBad.sign
      { height := 2, transactions := [1], consensusProgram := [2, 10, 20], witness := [] }
      demoHead rfl (by decide) (by decide)).2.2.1
    demoEnvBad [1] none
    (some ⟨{ height := 2, transactions := [1], consensusProgram := [2, 10, 20],
               witness := [] }, some 2⟩)
    0 5 rfl rfl rfl rfl rfl (by decide) rfl
  ⟨h.1, h.2.1⟩

/-- Counterexample to C4 as stated: with no head block (`State` returns
`nil`) and a stored pending block at height 2, `MakeBlock` reuses the
pending block — it is the candidate, no fresh generation happens —
although the claim's reuse condition ("its height equals the current
head block's height plus one") has no witness, so the claimed
"only if" direction fails. -/
theorem reuse_iff_next_height_counterexample :
    (MakeBlock demoEnvNoHead [1] (some ⟨demoBlock, some 2⟩) 0).candidate = some demoBlock
    ∧ Event.generatedFresh ∉
        (MakeBlock demoEnvNoHead [1] (some ⟨demoBlock, some 2⟩) 0).events
    ∧ Event.reusedPending ∈
        (MakeBlock demoEnvNoHead [1] (some ⟨demoBlock, some 2⟩) 0).events
    ∧ ¬ ∃ hb, demoEnvNoHead.headBlock = some hb ∧ demoBlock.height = hb.height + 1 := by
  refine ⟨by decide, by decide, by decide, ?_⟩
  rintro ⟨hb, hcontra, -⟩
  simp [demoEnvNoHead, demoEnv] at hcontra

/-- Claim C4 (amended): `MakeBlock` reuses the stored pending block —
it becomes the candidate unchanged (hence same hash), no fresh
generation, applied to a snapshot freshly derived from the head
snapshot, then proceeding to signing — if and only if a pending block
exists and either there is no head block or the pending height equals
the head height plus one; in every other case the cycle runs the
fresh-generation path. -/
theorem reuse_iff_next_height_amended (env : Env) (pool : List Tx)
    (store : Option PendingRow) (tme : Nat)
    (hread : env.pendingReadFail = false) :
    (∀ b, getPendingBlock store = some b →
      (env.headBlock = none ∨
        (∃ hb, env.headBlock = some hb ∧ b.height = hb.height + 1)) →
      MakeBlock env pool store tme = makeBlockReuse env pool store b
      ∧ (MakeBlock env pool store tme).candidate = some b
      ∧ Event.generatedFresh ∉ (MakeBlock env pool store tme).events
      ∧ (MakeBlock env pool store tme).store = store
      ∧ ∀ s, env.applyBlock (env.copySnapshot env.headSnapshot) b = some s →
          (MakeBlock env pool store tme).snapUsed = some s
          ∧ (MakeBlock env pool store tme).events =
              .reusedPending :: (commitBlock env.sign env.commitOk b s env.headBlock).2)
    ∧ (∀ b, getPendingBlock store = some b →
        (∃ hb, env.headBlock = some hb ∧ b.height ≠ hb.height + 1) →
        MakeBlock env pool store tme = makeBlockFresh env pool store tme)
    ∧ (getPendingBlock store = none →
        MakeBlock env pool store tme = makeBlockFresh env pool store tme) := by
  refine ⟨?_, ?_, fun h => MakeBlock_eq_fresh_of_no_pending hread h⟩
  · intro b hstore hcond
    have h3 : env.headBlock.all (fun hb => b.height = hb.height + 1) = true := by
      rcases hcond with hnone | ⟨hb, hhb, heq⟩
      · rw [hnone]; rfl
      · rw [hhb]; simp [Option.all, heq]
    have hMB : MakeBlock env pool store tme = makeBlockReuse env pool store b :=
      MakeBlock_eq_reuse hread hstore h3
    rw [hMB]
    cases happly : env.applyBlock (env.copySnapshot env.headSnapshot) b with
    | none =>
        refine ⟨rfl, ?_, ?_, ?_, ?_⟩
        · simp [makeBlockReuse, happly]
        · simp [makeBlockReuse, happly]
        · simp [makeBlockReuse, happly]
        · intro s hs
          exact Option.noConfusion hs
    | some s0 =>
        rw [makeBlockReuse_apply_ok happly]
        refine ⟨rfl, rfl, ?_, rfl, ?_⟩
        · intro h
          simp only [List.mem_cons] at h
          rcases h with h | h
          · simp at h
          · exact generatedFresh_not_mem_commitBlock h
        · intro s hs
          obtain rfl : s0 = s := by simpa using hs
          exact ⟨rfl, rfl⟩
  · intro b hstore ⟨hb, hhb, hne⟩
    have h3 : env.headBlock.all (fun hb => b.height = hb.height + 1) = false := by
      rw [hhb]
      simp [Option.all, hne]
    exact MakeBlock_eq_fresh_of_stale hread hstore h3

/-- Witness for the amended C4 at a concrete input: a pending block at
head height + 1 is reused. -/
theorem reuse_iff_next_height_amended_witness :
    MakeBlock demoEnv [1] (some ⟨demoBlock, some 2⟩) 0 =
      makeBlockReuse demoEnv [1] (some ⟨demoBlock, some 2⟩) demoBlock :=
  ((reuse_iff_next_height_amended demoEnv [1] (some ⟨demoBlock, some 2⟩) 0 rfl).1
    demoBlock rfl (Or.inr ⟨demoHead, rfl, rfl⟩)).1

/-- Claim C1: if the completions contain at least `quorum` signatures
matched by `indexKey` to pairwise-distinct key positions of the parsed
consensus program, collection succeeds and the block's witness is
exactly the ordered sequence (by key-set position) of the `quorum`
matched signatures, each verifying under the key of its slot, with all
matched slots holding distinct keys; if the backend commit then
succeeds, the cycle returns the block's hash. -/
theorem quorum_success_witness_exact (env : SignEnv) (b pb : Block)
    {pubkeys : List PubKey} {quorum : Nat} (special : List Sig)
    (hparse : env.parseProgram pb.consensusProgram = some (pubkeys, quorum))
    (hlen : quorum ≤ env.arrivals.length)
    (hsub : List.Sublist (special.map some) env.arrivals)
    (hpos : ∀ s ∈ special, 0 ≤ indexKey env.verify pubkeys (hashBytes b) s)
    (hpw : special.Pairwise (fun x y =>
      (indexKey env.verify pubkeys (hashBytes b) x).toNat ≠
        (indexKey env.verify pubkeys (hashBytes b) y).toNat))
    (hquorum : quorum ≤ special.length) :
    ∃ gs : List (Option Sig),
      (getAndAddBlockSignatures env b (some pb)).res =
        .ok { b with witness := nonNilSigs gs }
      ∧ gs.length = pubkeys.length
      ∧ (nonNilSigs gs).length = quorum
      ∧ (∀ (k : Nat) (sig : Sig), gs[k]? = some (some sig) →
          indexKey env.verify pubkeys (hashBytes b) sig = (k : Int))
      ∧ (∀ (k : Nat) (sig : Sig), gs[k]? = some (some sig) →
          ∃ key, pubkeys[k]? = some key ∧ env.verify key (hashBytes b) sig = true)
      ∧ (∀ (j k : Nat) (sj sk : Sig), j ≠ k →
          gs[j]? = some (some sj) → gs[k]? = some (some sk) →
          pubkeys[j]? ≠ pubkeys[k]?)
      ∧ (∀ (cOk : Block → Snapshot → Bool) (s : Snapshot),
          cOk { b with witness := nonNilSigs gs } s = true →
          (commitBlock env cOk b s (some pb)).1 = .ok (hashBytes b)) := by
  have hunf : ∀ s ∈ special,
      (List.replicate pubkeys.length (none : Option Sig)).getD
        (indexKey env.verify pubkeys (hashBytes b) s).toNat none = none :=
    fun s _ => getD_replicate_none _ _
  have hreach := collectLoop_reach env.verify pubkeys (hashBytes b) quorum
    env.arrivals
    { goodSigs := List.replicate pubkeys.length none, nready := 0, violations := [] }
    special hsub hpos hpw hunf
  have hge : quorum ≤ (collectFinal env b pubkeys quorum).nready := by
    have hreach' := hreach
    simp only at hreach'
    rw [Nat.zero_add, Nat.min_eq_left hquorum] at hreach'
    simpa [collectFinal] using hreach'
  have hle : (collectFinal env b pubkeys quorum).nready ≤ quorum :=
    collectLoop_nready_le env.verify pubkeys (hashBytes b) quorum env.arrivals _
      (Nat.zero_le _)
  have hq : ¬ (collectFinal env b pubkeys quorum).nready < quorum := by omega
  have heq := getAndAdd_quorum_reached env b pb hparse hlen hq
  refine ⟨(collectFinal env b pubkeys quorum).goodSigs, by rw [heq], ?_, ?_, ?_, ?_, ?_, ?_⟩
  · rw [collectFinal, collectLoop_goodSigs_length]
    simp
  · rw [nonNilSigs_length]
    have hcnt := collectLoop_count env.verify pubkeys (hashBytes b) quorum env.arrivals
      { goodSigs := List.replicate pubkeys.length none, nready := 0, violations := [] }
      (by simp) (by rw [countP_replicate_none])
    have hge' := hge
    have hle' := hle
    simp only [collectFinal] at hge' hle' ⊢
    omega
  · exact collectLoop_sound env.verify pubkeys (hashBytes b) quorum env.arrivals _
      (by simp)
      (by
        intro k sig hk
        rw [List.getElem?_replicate] at hk
        split at hk <;> simp at hk)
  · intro k sig hk
    have hidx := collectLoop_sound env.verify pubkeys (hashBytes b) quorum env.arrivals _
      (by simp)
      (by
        intro k' sig' hk'
        rw [List.getElem?_replicate] at hk'
        split at hk' <;> simp at hk')
      k sig hk
    have hfind : findKeyIdx env.verify (hashBytes b) sig pubkeys = some k := by
      have hnn : 0 ≤ indexKey env.verify pubkeys (hashBytes b) sig := by
        rw [hidx]; exact Int.natCast_nonneg k
      have := findKeyIdx_of_nonneg hnn
      rw [hidx] at this
      simpa using this
    obtain ⟨_, ⟨key, hkey, hv⟩, _⟩ := findKeyIdx_spec env.verify (hashBytes b) sig
      pubkeys k hfind
    exact ⟨key, hkey, hv⟩
  · intro j k sj sk hjk hj hk
    have hsound := collectLoop_sound env.verify pubkeys (hashBytes b) quorum env.arrivals
      { goodSigs := List.replicate pubkeys.length none, nready := 0, violations := [] }
      (by simp)
      (by
        intro k' sig' hk'
        rw [List.getElem?_replicate] at hk'
        split at hk' <;> simp at hk')
    have hfj : findKeyIdx env.verify (hashBytes b) sj pubkeys = some j := by
      have hidx := hsound j sj hj
      have hnn : 0 ≤ indexKey env.verify pubkeys (hashBytes b) sj := by
        rw [hidx]; exact Int.natCast_nonneg j
      have := findKeyIdx_of_nonneg hnn
      rw [hidx] at this
      simpa using this
    have hfk : findKeyIdx env.verify (hashBytes b) sk pubkeys = some k := by
      have hidx := hsound k sk hk
      have hnn : 0 ≤ indexKey env.verify pubkeys (hashBytes b) sk := by
        rw [hidx]; exact Int.natCast_nonneg k
      have := findKeyIdx_of_nonneg hnn
      rw [hidx] at this
      simpa using this
    rcases Nat.lt_trichotomy j k with hlt | heqjk | hgt
    · exact findKeyIdx_distinct_keys hlt hfj hfk
    · exact absurd heqjk hjk
    · exact (findKeyIdx_distinct_keys hgt hfk hfj).symm
  · intro cOk s hcommit
    have hres : (getAndAddBlockSignatures env b (some pb)).res =
        .ok { b with witness := nonNilSigs (collectFinal env b pubkeys quorum).goodSigs } := by
      rw [heq]
    rw [commitBlock_of_sign_ok hres]
    simp [hcommit, hashBytes]

/-- Witness for C1 at a concrete input: both signers of the 2-of-2
demo program reply with valid signatures. -/
theorem quorum_success_witness_exact_witness :
    ∃ gs : List (Option Sig),
      (getAndAddBlockSignatures demoEnv.sign demoBlock (some demoHead)).res =
        .ok { demoBlock with witness := nonNilSigs gs }
      ∧ gs.length = 2
      ∧ (nonNilSigs gs).length = 2 := by
  obtain ⟨gs, h1, h2, h3, -⟩ := quorum_success_witness_exact demoEnv.sign demoBlock
    demoHead [[10], [20]] rfl (by decide) (List.Sublist.refl _) (by decide) (by decide)
    (by decide)
  exact ⟨gs, h1, h2, h3⟩

end Chainmint
